import Mathlib

/-!
# A TTL cache with a background sweep (package `cache`)

Shallow embedding of `cache.go` and `definitions.go`.

* The Go map `map[string]cachedValue` is a `Finmap` over `String` keys: a finite
  map without any order on its entries, with at most one entry per key.
* `time.Now()` is an input of every operation that reads the clock.  An instant
  is the number of nanoseconds since the Unix epoch, a `time.Duration` is a
  number of nanoseconds, `Time.Add` is addition and `Time.Unix` the whole
  seconds since the epoch (rounded towards minus infinity, as the seconds field
  of a `time.Time` is).  Clock readings are far from the ends of the range of
  `time.Time`, so adding a 64-bit duration does not saturate and instants are
  unbounded integers here.
* Every operation of `cache.go` runs with `lc.mu` held, and so does every pass
  of the sweep: an execution is a sequence of atomic steps on the state.  The
  lock, the wait group and the stop channel are not part of the state below.
-/

namespace Cache

/-! ## Data model -/

/-- The two sentinel errors declared in `cache.go`. -/
inductive CacheError where
  | ErrKeyExists
  | ErrKeyNotInCache
  deriving DecidableEq, Repr

/-- A wall-clock instant, in nanoseconds since the Unix epoch. -/
abbrev Time := Int

/-- A `time.Duration`: a signed number of nanoseconds. -/
abbrev Duration := Int

/-- One second, as a `time.Duration`. -/
def Second : Duration := 1000000000

/-- One millisecond, as a `time.Duration`. -/
def Millisecond : Duration := 1000000

/-- The instant `t.Add(d)`. -/
def Time.Add (t : Time) (d : Duration) : Time := t + d

/-- The Unix time `t.Unix()`: whole seconds elapsed since the epoch. -/
def Time.Unix (t : Time) : Int := t / 1000000000

/-- The struct `cachedValue` of `definitions.go`; `V` stands for `interface{}`. -/
structure cachedValue (V : Type) where
  value : V
  expireAtTimestamp : Int
  deriving DecidableEq, Repr

/-- The Go type `map[string]cachedValue`. -/
abbrev GoMap (V : Type) := Finmap (fun _ : String => cachedValue V)

/-- The struct `LocalCache` of `definitions.go`, without its synchronisation fields. -/
structure LocalCache (V : Type) where
  cacheTTL : Duration
  cache : GoMap V

/-! ## Operations of `cache.go` -/

/-- The state `NewLocalCache(cacheTTL, cleanupInterval)` returns: an empty map and the TTL.
The interval only sets the period of the ticker that drives the sweep. -/
def NewLocalCache {V : Type} (cacheTTL _cleanupInterval : Duration) : LocalCache V :=
  { cacheTTL := cacheTTL, cache := ∅ }

/-- The method `InsertOne`, called when the clock reads `now`: the error it returns
(`none` for `nil`) and the state it leaves. -/
def InsertOne {V : Type} (lc : LocalCache V) (now : Time) (key : String) (value : V) :
    Option CacheError × LocalCache V :=
  match lc.cache.lookup key with
  | some _ => (some CacheError.ErrKeyExists, lc)
  | none =>
    let cv : cachedValue V := ⟨value, Time.Unix (Time.Add now lc.cacheTTL)⟩
    (none, { lc with cache := lc.cache.insert key cv })

/-- The method `UpdateOne`, called when the clock reads `now`: the error it returns
(`none` for `nil`) and the state it leaves. -/
def UpdateOne {V : Type} (lc : LocalCache V) (now : Time) (key : String) (value : V) :
    Option CacheError × LocalCache V :=
  match lc.cache.lookup key with
  | none => (some CacheError.ErrKeyNotInCache, lc)
  | some _ =>
    let cv : cachedValue V := ⟨value, Time.Unix (Time.Add now lc.cacheTTL)⟩
    (none, { lc with cache := lc.cache.insert key cv })

/-- The method `GetOne`: the entry found, or the error.  It writes nothing. -/
def GetOne {V : Type} (lc : LocalCache V) (key : String) :
    Except CacheError (cachedValue V) :=
  match lc.cache.lookup key with
  | none => Except.error CacheError.ErrKeyNotInCache
  | some cacheValue => Except.ok cacheValue

/-- The method `DeleteOne`: the state it leaves. -/
def DeleteOne {V : Type} (lc : LocalCache V) (key : String) : LocalCache V :=
  { lc with cache := lc.cache.erase key }

/-- The method `GetSize`: `len(lc.cache)`, the number of keys of the map. -/
def GetSize {V : Type} (lc : LocalCache V) : Nat :=
  lc.cache.keys.card

/-! ## The sweep of `definitions.go` -/

/-- The body of the `range` loop of `cleanupLoop` for the entry `(uid, cu)`, on the map `m`
being swept.  The clock is read once in every iteration: `nowAt uid` is the reading in the
iteration that visits `uid`. -/
def sweepStep {V : Type} (nowAt : String → Time) (m : GoMap V) (uid : String)
    (cu : cachedValue V) : GoMap V :=
  if cu.expireAtTimestamp ≤ Time.Unix (nowAt uid) then m.erase uid else m

/-- The `range` loop of `cleanupLoop` on the map `m`: the loop body runs once for every
entry the map holds when the loop starts.  `range` visits the entries in no specified
order; two iterations of the body commute, so the order does not matter. -/
def sweepMap {V : Type} (nowAt : String → Time) (m : GoMap V) : GoMap V :=
  Finmap.foldl (sweepStep nowAt)
    (by
      intro d a₁ b₁ a₂ b₂
      unfold sweepStep
      split_ifs <;> first | rfl | exact Finmap.erase_erase)
    m m

/-- One pass of the sweep, the `case <-t.C` branch of `cleanupLoop`. -/
def cleanupPass {V : Type} (nowAt : String → Time) (lc : LocalCache V) : LocalCache V :=
  { lc with cache := sweepMap nowAt lc.cache }

/-! ## Executions -/

/-- One atomic step on a cache: a call of a method, or one pass of the sweep. -/
inductive Op (V : Type) where
  | insertOne (now : Time) (key : String) (value : V)
  | updateOne (now : Time) (key : String) (value : V)
  | getOne (key : String)
  | deleteOne (key : String)
  | sweep (nowAt : String → Time)

/-- The state a step leaves. -/
def Op.exec {V : Type} (lc : LocalCache V) : Op V → LocalCache V
  | Op.insertOne now key value => (InsertOne lc now key value).2
  | Op.updateOne now key value => (UpdateOne lc now key value).2
  | Op.getOne _ => lc
  | Op.deleteOne key => DeleteOne lc key
  | Op.sweep nowAt => cleanupPass nowAt lc

/-- The state a sequence of steps leaves. -/
def run {V : Type} (lc : LocalCache V) (ops : List (Op V)) : LocalCache V :=
  ops.foldl Op.exec lc

/-- A step that cannot remove or replace an entry stored under `k`: no sweep, no
`DeleteOne(k)`, no `UpdateOne(k, _)`. -/
def Op.keeps {V : Type} (k : String) : Op V → Bool
  | Op.insertOne _ _ _ => true
  | Op.updateOne _ key _ => decide (key ≠ k)
  | Op.getOne _ => true
  | Op.deleteOne key => decide (key ≠ k)
  | Op.sweep _ => false

/-- A step that cannot store an entry under `k`: neither `InsertOne(k, _)` nor
`UpdateOne(k, _)`. -/
def Op.noWrite {V : Type} (k : String) : Op V → Bool
  | Op.insertOne _ key _ => decide (key ≠ k)
  | Op.updateOne _ key _ => decide (key ≠ k)
  | Op.getOne _ => true
  | Op.deleteOne _ => true
  | Op.sweep _ => true

/-- The expiration-timestamp stored under `k`, if `k` has an entry. -/
def storedExpiration {V : Type} (lc : LocalCache V) (k : String) : Option Int :=
  (lc.cache.lookup k).map cachedValue.expireAtTimestamp

/-- The sweep condition `cu.expireAtTimestamp <= now.Unix()` for the entry stored under `k`;
`false` when `k` has no entry. -/
def isExpired {V : Type} (lc : LocalCache V) (now : Time) (k : String) : Bool :=
  match lc.cache.lookup k with
  | some cu => decide (cu.expireAtTimestamp ≤ Time.Unix now)
  | none => false

/-- The keys of the map whose entry is expired when the clock reads `now`. -/
def expiredKeys {V : Type} (lc : LocalCache V) (now : Time) : Finset String :=
  lc.cache.keys.filter (fun k => isExpired lc now k = true)

/-- The keys of the map whose entry is not expired when the clock reads `now`. -/
def liveKeys {V : Type} (lc : LocalCache V) (now : Time) : Finset String :=
  lc.cache.keys.filter (fun k => ¬ isExpired lc now k = true)

/-- A cache with TTL 50ms and cleanup interval 10ms that holds `"a"`, inserted at time 0. -/
def sampleCache : LocalCache Nat :=
  (InsertOne (NewLocalCache (50 * Millisecond) (10 * Millisecond)) 0 "a" 7).2

/-- The state after `InsertOne` of the keys `ks` (the key `k` with value `val k`, at time
`tm k`) into a new cache, followed by `DeleteOne` of the keys `ds`. -/
def insertThenDelete {V : Type} (ttl interval : Duration) (ks ds : List String)
    (val : String → V) (tm : String → Time) : LocalCache V :=
  run (NewLocalCache ttl interval)
    (ks.map (fun k => Op.insertOne (tm k) k (val k)) ++ ds.map Op.deleteOne)

/-- The clock reading a step hands to `time.Now().Add(lc.cacheTTL)`: that of an `InsertOne`
or `UpdateOne` call. -/
def Op.clockReading {V : Type} : Op V → Option Time
  | Op.insertOne now _ _ => some now
  | Op.updateOne now _ _ => some now
  | Op.getOne _ => none
  | Op.deleteOne _ => none
  | Op.sweep _ => none

/-- The clock does not go backwards: the readings of the `InsertOne` and `UpdateOne` calls
of `ops`, in their order, followed by the current time `now`, never decrease.  The readings
of the sweep passes are left free. -/
def clockNondecreasing {V : Type} (ops : List (Op V)) (now : Time) : Prop :=
  (ops.filterMap Op.clockReading ++ [now]).Pairwise (fun a b => a ≤ b)

instance clockNondecreasing.decidable {V : Type} (ops : List (Op V)) (now : Time) :
    Decidable (clockNondecreasing ops now) := by
  unfold clockNondecreasing
  infer_instance

/-! ## Lemmas on the operations -/

theorem InsertOne_of_absent {V : Type} (lc : LocalCache V) (now : Time) (k : String) (v : V)
    (h : lc.cache.lookup k = none) :
    InsertOne lc now k v
      = (none, { lc with cache :=
          lc.cache.insert k ⟨v, Time.Unix (Time.Add now lc.cacheTTL)⟩ }) := by
  simp [InsertOne, h]

theorem InsertOne_of_present {V : Type} (lc : LocalCache V) (now : Time) (k : String) (v : V)
    (e : cachedValue V) (h : lc.cache.lookup k = some e) :
    InsertOne lc now k v = (some CacheError.ErrKeyExists, lc) := by
  simp [InsertOne, h]

theorem UpdateOne_of_absent {V : Type} (lc : LocalCache V) (now : Time) (k : String) (v : V)
    (h : lc.cache.lookup k = none) :
    UpdateOne lc now k v = (some CacheError.ErrKeyNotInCache, lc) := by
  simp [UpdateOne, h]

theorem UpdateOne_of_present {V : Type} (lc : LocalCache V) (now : Time) (k : String) (v : V)
    (e : cachedValue V) (h : lc.cache.lookup k = some e) :
    UpdateOne lc now k v
      = (none, { lc with cache :=
          lc.cache.insert k ⟨v, Time.Unix (Time.Add now lc.cacheTTL)⟩ }) := by
  simp [UpdateOne, h]

theorem GetOne_of_present {V : Type} (lc : LocalCache V) (k : String) (e : cachedValue V)
    (h : lc.cache.lookup k = some e) : GetOne lc k = Except.ok e := by
  simp [GetOne, h]

theorem GetOne_of_absent {V : Type} (lc : LocalCache V) (k : String)
    (h : lc.cache.lookup k = none) :
    GetOne lc k = Except.error CacheError.ErrKeyNotInCache := by
  simp [GetOne, h]

theorem keys_insert_eq {V : Type} (m : GoMap V) (k : String) (cv : cachedValue V) :
    (m.insert k cv).keys = insert k m.keys := by
  ext x
  simp [Finmap.mem_keys, Finmap.mem_insert]

theorem erase_of_absent {V : Type} (m : GoMap V) (k : String) (h : m.lookup k = none) :
    m.erase k = m := by
  apply Finmap.ext_lookup
  intro x
  by_cases hx : x = k
  · subst hx; rw [Finmap.lookup_erase, h]
  · exact Finmap.lookup_erase_ne hx

theorem lookup_InsertOne_of_ne {V : Type} (lc : LocalCache V) (now : Time) (key k : String)
    (v : V) (hne : key ≠ k) :
    (InsertOne lc now key v).2.cache.lookup k = lc.cache.lookup k := by
  unfold InsertOne
  cases hl : lc.cache.lookup key with
  | none => exact Finmap.lookup_insert_of_ne _ (Ne.symm hne)
  | some e0 => rfl

theorem lookup_UpdateOne_of_ne {V : Type} (lc : LocalCache V) (now : Time) (key k : String)
    (v : V) (hne : key ≠ k) :
    (UpdateOne lc now key v).2.cache.lookup k = lc.cache.lookup k := by
  unfold UpdateOne
  cases hl : lc.cache.lookup key with
  | none => rfl
  | some e0 => exact Finmap.lookup_insert_of_ne _ (Ne.symm hne)

theorem lookup_DeleteOne_of_ne {V : Type} (lc : LocalCache V) (key k : String)
    (hne : key ≠ k) : (DeleteOne lc key).cache.lookup k = lc.cache.lookup k :=
  Finmap.lookup_erase_ne (Ne.symm hne)

theorem exec_keeps {V : Type} (lc : LocalCache V) (k : String) (e : cachedValue V)
    (op : Op V) (h : lc.cache.lookup k = some e) (hk : op.keeps k = true) :
    (op.exec lc).cache.lookup k = some e := by
  cases op with
  | insertOne now key value =>
    by_cases hne : key = k
    · subst hne
      simp only [Op.exec]
      rw [InsertOne_of_present lc now key value e h]
      exact h
    · simp only [Op.exec]
      rw [lookup_InsertOne_of_ne lc now key k value hne]
      exact h
  | updateOne now key value =>
    have hne : key ≠ k := by simpa [Op.keeps] using hk
    simp only [Op.exec]
    rw [lookup_UpdateOne_of_ne lc now key k value hne]
    exact h
  | getOne key => exact h
  | deleteOne key =>
    have hne : key ≠ k := by simpa [Op.keeps] using hk
    simp only [Op.exec]
    rw [lookup_DeleteOne_of_ne lc key k hne]
    exact h
  | sweep nowAt => simp [Op.keeps] at hk

theorem run_keeps {V : Type} (ops : List (Op V)) (lc : LocalCache V) (k : String)
    (e : cachedValue V) (h : lc.cache.lookup k = some e)
    (hk : ∀ op ∈ ops, op.keeps k = true) :
    (run lc ops).cache.lookup k = some e := by
  induction ops generalizing lc with
  | nil => exact h
  | cons op rest ih =>
    have h1 := exec_keeps lc k e op h (hk op (List.mem_cons_self _ _))
    exact ih (op.exec lc) h1 (fun o ho => hk o (List.mem_cons_of_mem _ ho))

theorem lookup_foldl_sweepStep {V : Type} (nowAt : String → Time)
    (es : List (Sigma (fun _ : String => cachedValue V))) (acc : GoMap V) (k : String) :
    (es.foldl (fun d s => sweepStep nowAt d s.1 s.2) acc).lookup k
      = if ∃ s ∈ es, s.1 = k ∧ s.2.expireAtTimestamp ≤ Time.Unix (nowAt k)
        then none else acc.lookup k := by
  induction es generalizing acc with
  | nil => simp
  | cons s rest ih =>
    rw [List.foldl_cons, ih]
    by_cases hrest : ∃ s ∈ rest, s.1 = k ∧ s.2.expireAtTimestamp ≤ Time.Unix (nowAt k)
    · have hall : ∃ x ∈ s :: rest, x.1 = k ∧ x.2.expireAtTimestamp ≤ Time.Unix (nowAt k) := by
        obtain ⟨x, hx, hx2⟩ := hrest
        exact ⟨x, List.mem_cons_of_mem _ hx, hx2⟩
      rw [if_pos hrest, if_pos hall]
    · rw [if_neg hrest]
      by_cases hs : s.1 = k ∧ s.2.expireAtTimestamp ≤ Time.Unix (nowAt k)
      · have hall : ∃ x ∈ s :: rest, x.1 = k ∧ x.2.expireAtTimestamp ≤ Time.Unix (nowAt k) :=
          ⟨s, List.mem_cons_self _ _, hs⟩
        rw [if_pos hall]
        obtain ⟨hk, hexp⟩ := hs
        subst hk
        unfold sweepStep
        rw [if_pos hexp]
        exact Finmap.lookup_erase _ _
      · have hall : ¬ ∃ x ∈ s :: rest, x.1 = k ∧ x.2.expireAtTimestamp ≤ Time.Unix (nowAt k) := by
          rintro ⟨x, hx, hx2⟩
          rcases List.mem_cons.mp hx with rfl | hx
          · exact hs hx2
          · exact hrest ⟨x, hx, hx2⟩
        rw [if_neg hall]
        unfold sweepStep
        split_ifs with hexp
        · have hne : k ≠ s.1 := fun h => hs ⟨h.symm, by rw [← h] at hexp; exact hexp⟩
          exact Finmap.lookup_erase_ne hne
        · rfl

/-- What one pass of the sweep leaves under a key: the entry the map held, unless the
sweep condition holds for it. -/
theorem lookup_sweepMap {V : Type} (nowAt : String → Time) (m : GoMap V) (k : String) :
    (sweepMap nowAt m).lookup k
      = (m.lookup k).bind (fun cu =>
          if cu.expireAtTimestamp ≤ Time.Unix (nowAt k) then none else some cu) := by
  induction m using Finmap.induction_on with
  | H s =>
    unfold sweepMap Finmap.foldl
    rw [AList.toFinmap_entries]
    simp only [Multiset.coe_foldl]
    rw [lookup_foldl_sweepStep, Finmap.lookup_toFinmap]
    cases hl : s.lookup k with
    | none => simp
    | some cu =>
      have hmem : (⟨k, cu⟩ : Sigma (fun _ : String => cachedValue V)) ∈ s.entries :=
        AList.mem_lookup_iff.mp hl
      simp only [Option.some_bind]
      by_cases hexp : cu.expireAtTimestamp ≤ Time.Unix (nowAt k)
      · rw [if_pos hexp, if_pos ⟨⟨k, cu⟩, hmem, rfl, hexp⟩]
      · rw [if_neg hexp, if_neg]
        rintro ⟨x, hx, hxk, hxe⟩
        have hx2 : x = ⟨k, cu⟩ := s.nodupKeys.eq_of_fst_eq hx hmem hxk
        rw [hx2] at hxe
        exact hexp hxe

theorem lookup_cleanupPass {V : Type} (nowAt : String → Time) (lc : LocalCache V)
    (k : String) :
    (cleanupPass nowAt lc).cache.lookup k
      = (lc.cache.lookup k).bind (fun cu =>
          if cu.expireAtTimestamp ≤ Time.Unix (nowAt k) then none else some cu) :=
  lookup_sweepMap nowAt lc.cache k

theorem Unix_mono (t1 t2 : Time) (h : t1 ≤ t2) : Time.Unix t1 ≤ Time.Unix t2 := by
  unfold Time.Unix
  exact Int.ediv_le_ediv (by decide) h

theorem keys_InsertOne {V : Type} (lc : LocalCache V) (now : Time) (k : String) (v : V) :
    (InsertOne lc now k v).2.cache.keys = insert k lc.cache.keys := by
  cases hl : lc.cache.lookup k with
  | none =>
    rw [InsertOne_of_absent lc now k v hl]
    exact keys_insert_eq _ _ _
  | some e =>
    rw [InsertOne_of_present lc now k v e hl]
    have hmem : k ∈ lc.cache.keys :=
      Finmap.mem_keys.mpr (Finmap.mem_of_lookup_eq_some hl)
    exact (Finset.insert_eq_of_mem hmem).symm

theorem run_append {V : Type} (lc : LocalCache V) (ops1 ops2 : List (Op V)) :
    run lc (ops1 ++ ops2) = run (run lc ops1) ops2 := by
  simp [run, List.foldl_append]

theorem keys_run_inserts {V : Type} (ks : List String) (lc : LocalCache V)
    (val : String → V) (tm : String → Time) :
    (run lc (ks.map (fun k => Op.insertOne (tm k) k (val k)))).cache.keys
      = lc.cache.keys ∪ ks.toFinset := by
  induction ks generalizing lc with
  | nil => simp [run]
  | cons k rest ih =>
    have hstep : run lc ((k :: rest).map (fun k => Op.insertOne (tm k) k (val k)))
        = run (InsertOne lc (tm k) k (val k)).2
            (rest.map (fun k => Op.insertOne (tm k) k (val k))) := rfl
    rw [hstep, ih, keys_InsertOne, List.toFinset_cons]
    ext x
    simp only [Finset.mem_union, Finset.mem_insert]
    tauto

theorem keys_run_deletes {V : Type} (ds : List String) (lc : LocalCache V) :
    (run lc (ds.map Op.deleteOne)).cache.keys = lc.cache.keys \ ds.toFinset := by
  induction ds generalizing lc with
  | nil => simp [run]
  | cons d rest ih =>
    have hstep : run lc ((d :: rest).map Op.deleteOne)
        = run (DeleteOne lc d) (rest.map Op.deleteOne) := rfl
    have hk : (DeleteOne lc d).cache.keys = lc.cache.keys.erase d :=
      Finmap.keys_erase d lc.cache
    rw [hstep, ih, hk, List.toFinset_cons]
    ext x
    simp only [Finset.mem_sdiff, Finset.mem_erase, Finset.mem_insert]
    tauto

theorem exec_noWrite {V : Type} (A : cachedValue V → Prop) (lc : LocalCache V) (k : String)
    (op : Op V) (h : ∀ e, lc.cache.lookup k = some e → A e) (hk : op.noWrite k = true) :
    ∀ e, (op.exec lc).cache.lookup k = some e → A e := by
  cases op with
  | insertOne now key value =>
    have hne : key ≠ k := by simpa [Op.noWrite] using hk
    simp only [Op.exec]
    rw [lookup_InsertOne_of_ne lc now key k value hne]
    exact h
  | updateOne now key value =>
    have hne : key ≠ k := by simpa [Op.noWrite] using hk
    simp only [Op.exec]
    rw [lookup_UpdateOne_of_ne lc now key k value hne]
    exact h
  | getOne key => exact h
  | deleteOne key =>
    simp only [Op.exec]
    by_cases hne : key = k
    · subst hne
      intro e he
      have hnone : (DeleteOne lc key).cache.lookup key = none := Finmap.lookup_erase _ _
      rw [hnone] at he
      cases he
    · rw [lookup_DeleteOne_of_ne lc key k hne]
      exact h
  | sweep nowAt =>
    simp only [Op.exec]
    intro e he
    rw [lookup_cleanupPass] at he
    cases hl : lc.cache.lookup k with
    | none => rw [hl] at he; cases he
    | some e0 =>
      rw [hl, Option.some_bind] at he
      split_ifs at he
      have heq : e0 = e := Option.some.inj he
      rw [← heq]
      exact h e0 hl

theorem run_noWrite {V : Type} (A : cachedValue V → Prop) (ops : List (Op V))
    (lc : LocalCache V) (k : String) (h : ∀ e, lc.cache.lookup k = some e → A e)
    (hk : ∀ op ∈ ops, op.noWrite k = true) :
    ∀ e, (run lc ops).cache.lookup k = some e → A e := by
  induction ops generalizing lc with
  | nil => exact h
  | cons op rest ih =>
    have h1 := exec_noWrite A lc k op h (hk op (List.mem_cons_self _ _))
    exact ih (op.exec lc) h1 (fun o ho => hk o (List.mem_cons_of_mem _ ho))

/-! ## Insert, update and lookup -/

/-- C1: when `k` already has an entry, `InsertOne(k, v)` returns `ErrKeyExists` and leaves
the whole state as it was; in particular the entry under `k` keeps its value and its
expiration-timestamp. -/
theorem InsertOne_existing_key {V : Type} (lc : LocalCache V) (now : Time) (k : String)
    (v : V) (e : cachedValue V) (h : lc.cache.lookup k = some e) :
    InsertOne lc now k v = (some CacheError.ErrKeyExists, lc)
      ∧ (InsertOne lc now k v).2.cache.lookup k = some e := by
  have h1 := InsertOne_of_present lc now k v e h
  exact ⟨h1, by rw [h1]; exact h⟩

/-- C1 on the sample cache: a second insert under `"a"` fails and changes nothing. -/
theorem InsertOne_existing_key_witness :
    InsertOne sampleCache 3 "a" 9 = (some CacheError.ErrKeyExists, sampleCache)
      ∧ (InsertOne sampleCache 3 "a" 9).2.cache.lookup "a" = some ⟨7, 0⟩ :=
  InsertOne_existing_key sampleCache 3 "a" 9 ⟨7, 0⟩ (by decide)

/-- C2: when `k` has no entry, `InsertOne(k, v)` returns `nil`, and a `GetOne(k)` issued
right after it returns an entry whose value is `v`. -/
theorem InsertOne_then_GetOne {V : Type} (lc : LocalCache V) (now : Time) (k : String)
    (v : V) (h : lc.cache.lookup k = none) :
    (InsertOne lc now k v).1 = none
      ∧ ∃ e, GetOne (InsertOne lc now k v).2 k = Except.ok e ∧ e.value = v := by
  rw [InsertOne_of_absent lc now k v h]
  refine ⟨rfl, ⟨v, Time.Unix (Time.Add now lc.cacheTTL)⟩, ?_, rfl⟩
  exact GetOne_of_present _ k _ (Finmap.lookup_insert _)

/-- C2 on the sample cache: `"b"` is absent, and is found after its insert. -/
theorem InsertOne_then_GetOne_witness :
    (InsertOne sampleCache 3 "b" 9).1 = none
      ∧ ∃ e, GetOne (InsertOne sampleCache 3 "b" 9).2 "b" = Except.ok e ∧ e.value = 9 :=
  InsertOne_then_GetOne sampleCache 3 "b" 9 (by decide)

/-- C3: starting with `k` absent, after `InsertOne(k, v1)`, any steps that are neither a
sweep nor a `DeleteOne(k)` nor an `UpdateOne(k, _)`, and then `InsertOne(k, v2)`: the
first call succeeds, the second returns `ErrKeyExists`, and `GetOne(k)` still returns the
entry with value `v1` that the first call stored. -/
theorem InsertOne_twice {V : Type} (lc : LocalCache V) (t1 t2 : Time) (k : String)
    (v1 v2 : V) (ops : List (Op V)) (h : lc.cache.lookup k = none)
    (hops : ∀ op ∈ ops, op.keeps k = true) :
    (InsertOne lc t1 k v1).1 = none
      ∧ (InsertOne (run (InsertOne lc t1 k v1).2 ops) t2 k v2).1
          = some CacheError.ErrKeyExists
      ∧ GetOne (InsertOne (run (InsertOne lc t1 k v1).2 ops) t2 k v2).2 k
          = Except.ok ⟨v1, Time.Unix (Time.Add t1 lc.cacheTTL)⟩ := by
  have hins := InsertOne_of_absent lc t1 k v1 h
  have hl : (InsertOne lc t1 k v1).2.cache.lookup k
      = some ⟨v1, Time.Unix (Time.Add t1 lc.cacheTTL)⟩ := by
    rw [hins]; exact Finmap.lookup_insert _
  have hr := run_keeps ops _ k _ hl hops
  have h2 := InsertOne_of_present _ t2 k v2 _ hr
  refine ⟨by rw [hins], by rw [h2], ?_⟩
  rw [h2]
  exact GetOne_of_present _ k _ hr

/-- C3 on the sample cache, with a lookup, a delete of another key and a failed insert
in between. -/
theorem InsertOne_twice_witness :
    (InsertOne sampleCache 3 "b" 8).1 = none
      ∧ (InsertOne (run (InsertOne sampleCache 3 "b" 8).2
            [Op.getOne "b", Op.deleteOne "a", Op.insertOne 4 "b" 1]) 5 "b" 9).1
          = some CacheError.ErrKeyExists
      ∧ GetOne (InsertOne (run (InsertOne sampleCache 3 "b" 8).2
            [Op.getOne "b", Op.deleteOne "a", Op.insertOne 4 "b" 1]) 5 "b" 9).2 "b"
          = Except.ok ⟨8, Time.Unix (Time.Add 3 sampleCache.cacheTTL)⟩ :=
  InsertOne_twice sampleCache 3 5 "b" 8 9
    [Op.getOne "b", Op.deleteOne "a", Op.insertOne 4 "b" 1] (by decide) (by decide)

/-- C4: when `k` has no entry, `UpdateOne(k, v)` returns `ErrKeyNotInCache`, creates no
entry and leaves the whole state as it was, so a `GetOne(k)` after it returns
`ErrKeyNotInCache` too. -/
theorem UpdateOne_absent_key {V : Type} (lc : LocalCache V) (now : Time) (k : String)
    (v : V) (h : lc.cache.lookup k = none) :
    UpdateOne lc now k v = (some CacheError.ErrKeyNotInCache, lc)
      ∧ (UpdateOne lc now k v).2.cache.lookup k = none
      ∧ GetOne (UpdateOne lc now k v).2 k = Except.error CacheError.ErrKeyNotInCache := by
  have h1 := UpdateOne_of_absent lc now k v h
  refine ⟨h1, by rw [h1]; exact h, ?_⟩
  rw [h1]
  exact GetOne_of_absent lc k h

/-- C4 on the sample cache: `"b"` is absent, the update fails and changes nothing. -/
theorem UpdateOne_absent_key_witness :
    UpdateOne sampleCache 3 "b" 9 = (some CacheError.ErrKeyNotInCache, sampleCache)
      ∧ (UpdateOne sampleCache 3 "b" 9).2.cache.lookup "b" = none
      ∧ GetOne (UpdateOne sampleCache 3 "b" 9).2 "b"
          = Except.error CacheError.ErrKeyNotInCache :=
  UpdateOne_absent_key sampleCache 3 "b" 9 (by decide)

/-- C5: when `k` has an entry, whatever its value and expiration-timestamp,
`UpdateOne(k, v)` called at time `now` returns `nil`, the entry under `k` becomes `v` with
the expiration-timestamp computed from `now` and the TTL, and the number of entries does
not change. -/
theorem UpdateOne_existing_key {V : Type} (lc : LocalCache V) (now : Time) (k : String)
    (v : V) (old : cachedValue V) (h : lc.cache.lookup k = some old) :
    (UpdateOne lc now k v).1 = none
      ∧ (UpdateOne lc now k v).2.cache.lookup k
          = some ⟨v, Time.Unix (Time.Add now lc.cacheTTL)⟩
      ∧ GetSize (UpdateOne lc now k v).2 = GetSize lc := by
  rw [UpdateOne_of_present lc now k v old h]
  refine ⟨rfl, Finmap.lookup_insert _, ?_⟩
  have hmem : k ∈ lc.cache.keys :=
    Finmap.mem_keys.mpr (Finmap.mem_of_lookup_eq_some h)
  simp only [GetSize]
  rw [keys_insert_eq, Finset.insert_eq_of_mem hmem]

/-- C5 on the sample cache: `"a"` is updated three seconds after the epoch. -/
theorem UpdateOne_existing_key_witness :
    (UpdateOne sampleCache (3 * Second) "a" 9).1 = none
      ∧ (UpdateOne sampleCache (3 * Second) "a" 9).2.cache.lookup "a"
          = some ⟨9, Time.Unix (Time.Add (3 * Second) sampleCache.cacheTTL)⟩
      ∧ GetSize (UpdateOne sampleCache (3 * Second) "a" 9).2 = GetSize sampleCache :=
  UpdateOne_existing_key sampleCache (3 * Second) "a" 9 ⟨7, 0⟩ (by decide)

/-- C6 at a concrete input: on a cache with a TTL of 50ms, `InsertOne` at 980ms after the
epoch stores the expiration-timestamp 1, the Unix second of 1030ms, which denotes the
instant 1000ms.  That is neither the instant `now + ttl` (in nanoseconds, or read as a
number of seconds), nor the Unix second of `now` plus the whole seconds of the TTL. -/
theorem stored_expiration_not_now_plus_ttl :
    storedExpiration (InsertOne sampleCache (980 * Millisecond) "k" 1).2 "k" = some 1
      ∧ storedExpiration (InsertOne sampleCache (980 * Millisecond) "k" 1).2 "k"
          ≠ some (Time.Add (980 * Millisecond) (50 * Millisecond))
      ∧ (storedExpiration (InsertOne sampleCache (980 * Millisecond) "k" 1).2 "k").map
            (fun sec => sec * Second)
          ≠ some (Time.Add (980 * Millisecond) (50 * Millisecond))
      ∧ storedExpiration (InsertOne sampleCache (980 * Millisecond) "k" 1).2 "k"
          ≠ some (Time.Unix (980 * Millisecond) + (50 * Millisecond) / Second)
      ∧ sampleCache.cacheTTL = 50 * Millisecond := by
  decide

/-- C7: `GetOne(k)` returns the entry stored under `k`, as stored, exactly when `k` is a key
of the map, and `ErrKeyNotInCache` exactly when it is not.  It never reads the clock: an
entry that is expired at the current time `now` and still in the map is returned. -/
theorem GetOne_spec {V : Type} (lc : LocalCache V) (k : String) :
    (∀ e, GetOne lc k = Except.ok e ↔ lc.cache.lookup k = some e)
      ∧ ((∃ e, GetOne lc k = Except.ok e) ↔ k ∈ lc.cache)
      ∧ (GetOne lc k = Except.error CacheError.ErrKeyNotInCache ↔ k ∉ lc.cache)
      ∧ (∀ now : Time, isExpired lc now k = true →
          ∃ e, GetOne lc k = Except.ok e ∧ lc.cache.lookup k = some e
            ∧ e.expireAtTimestamp ≤ Time.Unix now) := by
  cases hl : lc.cache.lookup k with
  | none =>
    have hnot : k ∉ lc.cache := Finmap.lookup_eq_none.mp hl
    simp [GetOne, isExpired, hl, hnot]
  | some e0 =>
    have hmem : k ∈ lc.cache := Finmap.mem_of_lookup_eq_some hl
    simp [GetOne, isExpired, hl, hmem]

/-! ## Delete and size -/

/-- C8: after `DeleteOne(k)` the key `k` is absent and every other key keeps its entry;
when `k` was absent the state does not change; and a second `DeleteOne(k)` changes nothing
more. -/
theorem DeleteOne_spec {V : Type} (lc : LocalCache V) (k : String) :
    (DeleteOne lc k).cache.lookup k = none
      ∧ (∀ k2, k2 ≠ k → (DeleteOne lc k).cache.lookup k2 = lc.cache.lookup k2)
      ∧ (k ∉ lc.cache → DeleteOne lc k = lc)
      ∧ DeleteOne (DeleteOne lc k) k = DeleteOne lc k := by
  have h1 : (DeleteOne lc k).cache.lookup k = none := Finmap.lookup_erase _ _
  refine ⟨h1, fun k2 h => Finmap.lookup_erase_ne h, ?_, ?_⟩
  · intro hnot
    have hl : lc.cache.lookup k = none := Finmap.lookup_eq_none.mpr hnot
    unfold DeleteOne
    rw [erase_of_absent lc.cache k hl]
  · show ({ (DeleteOne lc k) with cache := (DeleteOne lc k).cache.erase k } : LocalCache V)
      = DeleteOne lc k
    rw [erase_of_absent _ k h1]

/-- C9: from a new cache, after `InsertOne` of `N` pairwise distinct keys (at any times)
followed by `DeleteOne` of `M` distinct keys among them, with no sweep in between,
`GetSize()` returns `N - M`.  The count is of all entries: at any time `now` it is the
number of expired entries plus the number of entries that are not expired. -/
theorem size_accounting {V : Type} (ttl interval : Duration) (ks ds : List String)
    (val : String → V) (tm : String → Time) (hks : ks.Nodup) (hds : ds.Nodup)
    (hsub : ∀ k ∈ ds, k ∈ ks) :
    GetSize (insertThenDelete ttl interval ks ds val tm) = ks.length - ds.length
      ∧ ds.length ≤ ks.length
      ∧ ∀ now : Time, GetSize (insertThenDelete ttl interval ks ds val tm)
          = (expiredKeys (insertThenDelete ttl interval ks ds val tm) now).card
            + (liveKeys (insertThenDelete ttl interval ks ds val tm) now).card := by
  have hsubset : ds.toFinset ⊆ ks.toFinset := by
    intro x hx
    exact List.mem_toFinset.mpr (hsub x (List.mem_toFinset.mp hx))
  have hkeys : (insertThenDelete ttl interval ks ds val tm).cache.keys
      = ks.toFinset \ ds.toFinset := by
    unfold insertThenDelete
    rw [run_append, keys_run_deletes, keys_run_inserts]
    simp [NewLocalCache]
  have hcard : ds.length ≤ ks.length := by
    have := Finset.card_le_card hsubset
    rwa [List.toFinset_card_of_nodup hds, List.toFinset_card_of_nodup hks] at this
  refine ⟨?_, hcard, ?_⟩
  · unfold GetSize
    rw [hkeys, Finset.card_sdiff hsubset, List.toFinset_card_of_nodup hds,
      List.toFinset_card_of_nodup hks]
  · intro now
    unfold GetSize expiredKeys liveKeys
    exact (Finset.filter_card_add_filter_neg_card_eq_card _).symm

/-- C9 for three keys inserted and two of them deleted. -/
theorem size_accounting_witness :
    GetSize (insertThenDelete (50 * Millisecond) (10 * Millisecond) ["a", "b", "c"] ["c", "a"]
        (fun _ => (7 : Nat)) (fun _ => 0)) = ["a", "b", "c"].length - ["c", "a"].length
      ∧ ["c", "a"].length ≤ ["a", "b", "c"].length
      ∧ ∀ now : Time,
          GetSize (insertThenDelete (50 * Millisecond) (10 * Millisecond) ["a", "b", "c"]
            ["c", "a"] (fun _ => (7 : Nat)) (fun _ => 0))
          = (expiredKeys (insertThenDelete (50 * Millisecond) (10 * Millisecond)
              ["a", "b", "c"] ["c", "a"] (fun _ => (7 : Nat)) (fun _ => 0)) now).card
            + (liveKeys (insertThenDelete (50 * Millisecond) (10 * Millisecond)
              ["a", "b", "c"] ["c", "a"] (fun _ => (7 : Nat)) (fun _ => 0)) now).card :=
  size_accounting (50 * Millisecond) (10 * Millisecond) ["a", "b", "c"] ["c", "a"]
    (fun _ => 7) (fun _ => 0) (by decide) (by decide) (by decide)

/-! ## Expiration -/

/-- C10: an entry inserted under `k` at time `t` is gone after a sweep pass whose clock
reading, when it visits `k`, is at least `t + TTL`, whatever the TTL and whatever steps
other than `InsertOne(k, _)` and `UpdateOne(k, _)` run before and after that pass: a
`GetOne(k)` then returns `ErrKeyNotInCache`. -/
theorem expiration_via_sweep {V : Type} (lc : LocalCache V) (t : Time) (k : String) (v : V)
    (before after : List (Op V)) (nowAt : String → Time)
    (h : lc.cache.lookup k = none)
    (hbefore : ∀ op ∈ before, op.noWrite k = true)
    (hafter : ∀ op ∈ after, op.noWrite k = true)
    (hlate : Time.Add t lc.cacheTTL ≤ nowAt k) :
    (InsertOne lc t k v).1 = none
      ∧ GetOne (run (cleanupPass nowAt (run (InsertOne lc t k v).2 before)) after) k
          = Except.error CacheError.ErrKeyNotInCache := by
  have hins := InsertOne_of_absent lc t k v h
  refine ⟨by rw [hins], ?_⟩
  have h0 : ∀ e, (InsertOne lc t k v).2.cache.lookup k = some e →
      e.expireAtTimestamp = Time.Unix (Time.Add t lc.cacheTTL) := by
    intro e he
    rw [hins] at he
    have hl : (lc.cache.insert k
        (⟨v, Time.Unix (Time.Add t lc.cacheTTL)⟩ : cachedValue V)).lookup k
        = some ⟨v, Time.Unix (Time.Add t lc.cacheTTL)⟩ := Finmap.lookup_insert _
    have he2 : some (⟨v, Time.Unix (Time.Add t lc.cacheTTL)⟩ : cachedValue V) = some e :=
      hl.symm.trans he
    cases he2
    rfl
  have h1 := run_noWrite _ before _ k h0 hbefore
  have h2 : ∀ e, (cleanupPass nowAt (run (InsertOne lc t k v).2 before)).cache.lookup k
      = some e → False := by
    intro e he
    rw [lookup_cleanupPass] at he
    cases hl : (run (InsertOne lc t k v).2 before).cache.lookup k with
    | none => rw [hl] at he; cases he
    | some e0 =>
      rw [hl, Option.some_bind] at he
      have hexp : e0.expireAtTimestamp ≤ Time.Unix (nowAt k) := by
        rw [h1 e0 hl]
        exact Unix_mono _ _ hlate
      rw [if_pos hexp] at he
      cases he
  have h3 := run_noWrite (fun _ => False) after _ k h2 hafter
  apply GetOne_of_absent
  cases hl : (run (cleanupPass nowAt (run (InsertOne lc t k v).2 before)) after).cache.lookup k
    with
  | none => rfl
  | some e => exact (h3 e hl).elim

/-- C10 with a TTL of 50ms and sweep passes 10ms apart: the entry inserted at 960ms is
gone after the pass at 1010ms. -/
theorem expiration_via_sweep_witness :
    (InsertOne (NewLocalCache (50 * Millisecond) (10 * Millisecond) : LocalCache Nat)
        (960 * Millisecond) "k" 1).1 = none
      ∧ GetOne (run (cleanupPass (fun _ => 1010 * Millisecond)
          (run (InsertOne (NewLocalCache (50 * Millisecond) (10 * Millisecond) : LocalCache Nat)
            (960 * Millisecond) "k" 1).2
            [Op.sweep (fun _ => 970 * Millisecond), Op.getOne "k",
              Op.sweep (fun _ => 980 * Millisecond), Op.sweep (fun _ => 990 * Millisecond)]))
          [Op.sweep (fun _ => 1020 * Millisecond), Op.getOne "k"]) "k"
          = Except.error CacheError.ErrKeyNotInCache :=
  expiration_via_sweep (NewLocalCache (50 * Millisecond) (10 * Millisecond))
    (960 * Millisecond) "k" 1
    [Op.sweep (fun _ => 970 * Millisecond), Op.getOne "k",
      Op.sweep (fun _ => 980 * Millisecond), Op.sweep (fun _ => 990 * Millisecond)]
    [Op.sweep (fun _ => 1020 * Millisecond), Op.getOne "k"]
    (fun _ => 1010 * Millisecond) (by decide) (by decide) (by decide) (by decide)

/-- C11 at a concrete input: on a cache with a TTL of 50ms, the entry inserted at 960ms is
removed by the sweep pass at 1000ms, 40ms after the insert and before `t + TTL` = 1010ms,
so `GetOne` no longer finds it; with a TTL of one second, the entry inserted at 900ms is
removed by the same pass, 100ms after the insert. -/
theorem sweep_removes_before_ttl :
    (InsertOne (NewLocalCache (50 * Millisecond) (10 * Millisecond) : LocalCache Nat)
        (960 * Millisecond) "k" 1).1 = none
      ∧ 1000 * Millisecond < Time.Add (960 * Millisecond) (50 * Millisecond)
      ∧ GetOne (cleanupPass (fun _ => 1000 * Millisecond)
          (InsertOne (NewLocalCache (50 * Millisecond) (10 * Millisecond) : LocalCache Nat)
            (960 * Millisecond) "k" 1).2) "k" = Except.error CacheError.ErrKeyNotInCache
      ∧ 1000 * Millisecond < Time.Add (900 * Millisecond) (1 * Second)
      ∧ GetOne (cleanupPass (fun _ => 1000 * Millisecond)
          (InsertOne (NewLocalCache (1 * Second) (10 * Millisecond) : LocalCache Nat)
            (900 * Millisecond) "k" 1).2) "k" = Except.error CacheError.ErrKeyNotInCache :=
  ⟨by decide, by decide, rfl, by decide, rfl⟩

/-! ## The sweep pass -/

theorem sweepMap_absorb {V : Type} (nowAt1 nowAt2 : String → Time) (m : GoMap V)
    (h : ∀ k, nowAt1 k ≤ nowAt2 k) :
    sweepMap nowAt2 (sweepMap nowAt1 m) = sweepMap nowAt2 m := by
  apply Finmap.ext_lookup
  intro k
  rw [lookup_sweepMap, lookup_sweepMap, lookup_sweepMap]
  cases hl : m.lookup k with
  | none => rfl
  | some e =>
    simp only [Option.some_bind]
    by_cases h1 : e.expireAtTimestamp ≤ Time.Unix (nowAt1 k)
    · have h2 : e.expireAtTimestamp ≤ Time.Unix (nowAt2 k) :=
        le_trans h1 (Unix_mono _ _ (h k))
      rw [if_pos h1, if_pos h2]
      rfl
    · rw [if_neg h1]
      rfl

theorem keys_sweepMap_subset {V : Type} (nowAt : String → Time) (m : GoMap V) :
    (sweepMap nowAt m).keys ⊆ m.keys := by
  intro k hk
  rw [Finmap.mem_keys] at hk ⊢
  by_contra hnot
  have hl : m.lookup k = none := Finmap.lookup_eq_none.mpr hnot
  have hs : (sweepMap nowAt m).lookup k = none := by
    rw [lookup_sweepMap, hl]
    rfl
  exact (Finmap.lookup_eq_none.mp hs) hk

/-- C14: one pass of the sweep, with the clock reading `nowAt k` when the pass visits `k`
(the same `now` for every `k` when the clock does not move during the pass), leaves
exactly the entries whose expiration-timestamp is greater than the current Unix time: an
entry with `expireAtTimestamp <= now.Unix()` is removed, every other entry is kept as it
is, and no entry is added.  The comparison in seconds says that the instant the timestamp
denotes is not after the current instant. -/
theorem cleanupPass_spec {V : Type} (nowAt : String → Time) (lc : LocalCache V) :
    (∀ k, (cleanupPass nowAt lc).cache.lookup k
        = (lc.cache.lookup k).filter
            (fun cu => decide (Time.Unix (nowAt k) < cu.expireAtTimestamp)))
      ∧ (∀ k e, lc.cache.lookup k = some e → e.expireAtTimestamp ≤ Time.Unix (nowAt k) →
          (cleanupPass nowAt lc).cache.lookup k = none)
      ∧ (∀ k e, lc.cache.lookup k = some e → Time.Unix (nowAt k) < e.expireAtTimestamp →
          (cleanupPass nowAt lc).cache.lookup k = some e)
      ∧ (∀ k, lc.cache.lookup k = none → (cleanupPass nowAt lc).cache.lookup k = none)
      ∧ (∀ (now : Time) (ts : Int), ts ≤ Time.Unix now ↔ ts * Second ≤ now)
      ∧ (cleanupPass nowAt lc).cacheTTL = lc.cacheTTL := by
  refine ⟨?_, ?_, ?_, ?_, ?_, rfl⟩
  · intro k
    rw [lookup_cleanupPass]
    cases hl : lc.cache.lookup k with
    | none => rfl
    | some e =>
      by_cases h1 : e.expireAtTimestamp ≤ Time.Unix (nowAt k)
      · simp [Option.filter, h1, not_lt.mpr h1]
      · simp [Option.filter, h1, lt_of_not_le h1]
  · intro k e hl h1
    rw [lookup_cleanupPass, hl, Option.some_bind, if_pos h1]
  · intro k e hl h1
    rw [lookup_cleanupPass, hl, Option.some_bind, if_neg (not_le.mpr h1)]
  · intro k hl
    rw [lookup_cleanupPass, hl]
    rfl
  · intro now ts
    unfold Time.Unix Second
    exact Int.le_ediv_iff_mul_le (by decide)

/-- C17: for times `t <= t2`, a pass at `t` followed by a pass at `t2` leaves the same
state as a single pass at `t2`; two passes at the same time leave the same state as one;
and a pass never increases `GetSize()`. -/
theorem cleanupPass_absorbs {V : Type} (lc : LocalCache V) (t t2 : Time) (h : t ≤ t2) :
    cleanupPass (fun _ => t2) (cleanupPass (fun _ => t) lc) = cleanupPass (fun _ => t2) lc
      ∧ cleanupPass (fun _ => t) (cleanupPass (fun _ => t) lc) = cleanupPass (fun _ => t) lc
      ∧ GetSize (cleanupPass (fun _ => t) lc) ≤ GetSize lc
      ∧ GetSize (cleanupPass (fun _ => t2) (cleanupPass (fun _ => t) lc)) ≤ GetSize lc := by
  have habs : ∀ a b : Time, a ≤ b →
      cleanupPass (fun _ => b) (cleanupPass (fun _ => a) lc) = cleanupPass (fun _ => b) lc := by
    intro a b hab
    unfold cleanupPass
    simp only
    rw [sweepMap_absorb (fun _ => a) (fun _ => b) lc.cache (fun _ => hab)]
  have hsize : ∀ a : Time, GetSize (cleanupPass (fun _ => a) lc) ≤ GetSize lc :=
    fun a => Finset.card_le_card (keys_sweepMap_subset _ lc.cache)
  refine ⟨habs t t2 h, habs t t (le_refl t), hsize t, ?_⟩
  rw [habs t t2 h]
  exact hsize t2

/-- C17 on the sample cache, for passes at 10ms and at two seconds. -/
theorem cleanupPass_absorbs_witness :
    cleanupPass (fun _ => 2 * Second) (cleanupPass (fun _ => 10 * Millisecond) sampleCache)
        = cleanupPass (fun _ => 2 * Second) sampleCache
      ∧ cleanupPass (fun _ => 10 * Millisecond)
          (cleanupPass (fun _ => 10 * Millisecond) sampleCache)
        = cleanupPass (fun _ => 10 * Millisecond) sampleCache
      ∧ GetSize (cleanupPass (fun _ => 10 * Millisecond) sampleCache) ≤ GetSize sampleCache
      ∧ GetSize (cleanupPass (fun _ => 2 * Second)
          (cleanupPass (fun _ => 10 * Millisecond) sampleCache)) ≤ GetSize sampleCache :=
  cleanupPass_absorbs sampleCache (10 * Millisecond) (2 * Second) (by decide)

/-! ## Frame and upsert -/

/-- C15: an entry stored under `k` changes only by a successful `UpdateOne(k, _)`.
`GetOne` on any key leaves the whole state as it is and returns the entry of `k` as stored;
a failed `InsertOne` leaves the whole state as it is; `InsertOne`, `UpdateOne` and
`DeleteOne` on another key leave the entry of `k` as it is; a pass of the sweep leaves it
as it is or removes it; and any step that is not `UpdateOne(k, _)` leaves it as it is or
removes it.  (`GetSize` returns a number and has no state to leave.) -/
theorem entry_frame {V : Type} (lc : LocalCache V) (k : String) (e : cachedValue V)
    (h : lc.cache.lookup k = some e) :
    (∀ k2, (Op.getOne k2 : Op V).exec lc = lc)
      ∧ GetOne lc k = Except.ok e
      ∧ (∀ now k2 v, (InsertOne lc now k2 v).1 ≠ none → (InsertOne lc now k2 v).2 = lc)
      ∧ (∀ now k2 v, k2 ≠ k → (InsertOne lc now k2 v).2.cache.lookup k = some e)
      ∧ (∀ now k2 v, k2 ≠ k → (UpdateOne lc now k2 v).2.cache.lookup k = some e)
      ∧ (∀ k2, k2 ≠ k → (DeleteOne lc k2).cache.lookup k = some e)
      ∧ (∀ nowAt, (cleanupPass nowAt lc).cache.lookup k = some e
          ∨ (cleanupPass nowAt lc).cache.lookup k = none)
      ∧ (∀ op : Op V, (op.exec lc).cache.lookup k = some e
          ∨ (op.exec lc).cache.lookup k = none
          ∨ ∃ now v, op = Op.updateOne now k v) := by
  have hsweep : ∀ nowAt, (cleanupPass nowAt lc).cache.lookup k = some e
      ∨ (cleanupPass nowAt lc).cache.lookup k = none := by
    intro nowAt
    rw [lookup_cleanupPass, h, Option.some_bind]
    by_cases hexp : e.expireAtTimestamp ≤ Time.Unix (nowAt k)
    · right; rw [if_pos hexp]
    · left; rw [if_neg hexp]
  refine ⟨fun _ => rfl, GetOne_of_present lc k e h, ?_, ?_, ?_, ?_, hsweep, ?_⟩
  · intro now k2 v hfail
    cases hl : lc.cache.lookup k2 with
    | none =>
      rw [InsertOne_of_absent lc now k2 v hl] at hfail
      exact (hfail rfl).elim
    | some e2 => rw [InsertOne_of_present lc now k2 v e2 hl]
  · intro now k2 v hne
    rw [lookup_InsertOne_of_ne lc now k2 k v hne]
    exact h
  · intro now k2 v hne
    rw [lookup_UpdateOne_of_ne lc now k2 k v hne]
    exact h
  · intro k2 hne
    rw [lookup_DeleteOne_of_ne lc k2 k hne]
    exact h
  · intro op
    cases op with
    | insertOne now key value =>
      left
      exact exec_keeps lc k e _ h rfl
    | updateOne now key value =>
      by_cases hne : key = k
      · right; right
        exact ⟨now, value, by rw [hne]⟩
      · left
        exact exec_keeps lc k e _ h (by simpa [Op.keeps] using hne)
    | getOne key => left; exact h
    | deleteOne key =>
      by_cases hne : key = k
      · right; left
        rw [hne]
        exact Finmap.lookup_erase _ _
      · left
        exact exec_keeps lc k e _ h (by simpa [Op.keeps] using hne)
    | sweep nowAt =>
      rcases hsweep nowAt with h1 | h1
      · left; exact h1
      · right; left; exact h1

/-- C15 on the sample cache, for its entry under `"a"`. -/
theorem entry_frame_witness :
    (∀ k2, (Op.getOne k2 : Op Nat).exec sampleCache = sampleCache)
      ∧ GetOne sampleCache "a" = Except.ok ⟨7, 0⟩
      ∧ (∀ now k2 v, (InsertOne sampleCache now k2 v).1 ≠ none →
          (InsertOne sampleCache now k2 v).2 = sampleCache)
      ∧ (∀ now k2 v, k2 ≠ "a" →
          (InsertOne sampleCache now k2 v).2.cache.lookup "a" = some ⟨7, 0⟩)
      ∧ (∀ now k2 v, k2 ≠ "a" →
          (UpdateOne sampleCache now k2 v).2.cache.lookup "a" = some ⟨7, 0⟩)
      ∧ (∀ k2, k2 ≠ "a" → (DeleteOne sampleCache k2).cache.lookup "a" = some ⟨7, 0⟩)
      ∧ (∀ nowAt, (cleanupPass nowAt sampleCache).cache.lookup "a" = some ⟨7, 0⟩
          ∨ (cleanupPass nowAt sampleCache).cache.lookup "a" = none)
      ∧ (∀ op : Op Nat, (op.exec sampleCache).cache.lookup "a" = some ⟨7, 0⟩
          ∨ (op.exec sampleCache).cache.lookup "a" = none
          ∨ ∃ now v, op = Op.updateOne now "a" v) :=
  entry_frame sampleCache "a" ⟨7, 0⟩ (by decide)

/-- C16: of `InsertOne(k, v)` and `UpdateOne(k, v)` called on the same state at the same
time, exactly one succeeds, `InsertOne` when `k` has no entry and `UpdateOne` when it has
one, and the one that succeeds leaves the old map with `k` bound to `v` and the
expiration-timestamp computed from the time of the call and the TTL. -/
theorem upsert_complementarity {V : Type} (lc : LocalCache V) (now : Time) (k : String)
    (v : V) :
    ((InsertOne lc now k v).1 = none ↔ k ∉ lc.cache)
      ∧ ((UpdateOne lc now k v).1 = none ↔ k ∈ lc.cache)
      ∧ ((InsertOne lc now k v).1 = none ↔ (UpdateOne lc now k v).1 ≠ none)
      ∧ ((InsertOne lc now k v).1 = none → (InsertOne lc now k v).2
          = { lc with cache :=
                lc.cache.insert k ⟨v, Time.Unix (Time.Add now lc.cacheTTL)⟩ })
      ∧ ((UpdateOne lc now k v).1 = none → (UpdateOne lc now k v).2
          = { lc with cache :=
                lc.cache.insert k ⟨v, Time.Unix (Time.Add now lc.cacheTTL)⟩ }) := by
  cases hl : lc.cache.lookup k with
  | none =>
    have hnot : k ∉ lc.cache := Finmap.lookup_eq_none.mp hl
    rw [InsertOne_of_absent lc now k v hl, UpdateOne_of_absent lc now k v hl]
    simp [hnot]
  | some e0 =>
    have hmem : k ∈ lc.cache := Finmap.mem_of_lookup_eq_some hl
    rw [InsertOne_of_present lc now k v e0 hl, UpdateOne_of_present lc now k v e0 hl]
    simp [hmem]

/-! ## Bounded lifetime -/

theorem cacheTTL_exec {V : Type} (lc : LocalCache V) (op : Op V) :
    (op.exec lc).cacheTTL = lc.cacheTTL := by
  cases op with
  | insertOne now key value =>
    simp only [Op.exec, InsertOne]
    cases lc.cache.lookup key <;> rfl
  | updateOne now key value =>
    simp only [Op.exec, UpdateOne]
    cases lc.cache.lookup key <;> rfl
  | getOne key => rfl
  | deleteOne key => rfl
  | sweep nowAt => rfl

theorem write_bounded {V : Type} (lc : LocalCache V) (t now : Time) (key k : String) (v : V)
    (e : cachedValue V) (ht : t ≤ now)
    (h : ∀ e0, lc.cache.lookup k = some e0 →
      e0.expireAtTimestamp ≤ Time.Unix (Time.Add now lc.cacheTTL))
    (he : (lc.cache.insert key
      (⟨v, Time.Unix (Time.Add t lc.cacheTTL)⟩ : cachedValue V)).lookup k = some e) :
    e.expireAtTimestamp ≤ Time.Unix (Time.Add now lc.cacheTTL) := by
  by_cases hk : k = key
  · subst hk
    rw [Finmap.lookup_insert] at he
    have heq : (⟨v, Time.Unix (Time.Add t lc.cacheTTL)⟩ : cachedValue V) = e :=
      Option.some.inj he
    rw [← heq]
    apply Unix_mono
    unfold Time.Add
    exact Int.add_le_add_right ht _
  · rw [Finmap.lookup_insert_of_ne _ hk] at he
    exact h e he

theorem exec_bounded {V : Type} (lc : LocalCache V) (op : Op V) (now : Time) (k : String)
    (hread : ∀ t, op.clockReading = some t → t ≤ now)
    (h : ∀ e0, lc.cache.lookup k = some e0 →
      e0.expireAtTimestamp ≤ Time.Unix (Time.Add now lc.cacheTTL)) :
    ∀ e, (op.exec lc).cache.lookup k = some e →
      e.expireAtTimestamp ≤ Time.Unix (Time.Add now lc.cacheTTL) := by
  cases op with
  | insertOne t key value =>
    intro e he
    simp only [Op.exec] at he
    cases hl : lc.cache.lookup key with
    | none =>
      rw [InsertOne_of_absent lc t key value hl] at he
      exact write_bounded lc t now key k value e (hread t rfl) h he
    | some e1 =>
      rw [InsertOne_of_present lc t key value e1 hl] at he
      exact h e he
  | updateOne t key value =>
    intro e he
    simp only [Op.exec] at he
    cases hl : lc.cache.lookup key with
    | none =>
      rw [UpdateOne_of_absent lc t key value hl] at he
      exact h e he
    | some e1 =>
      rw [UpdateOne_of_present lc t key value e1 hl] at he
      exact write_bounded lc t now key k value e (hread t rfl) h he
  | getOne key => exact h
  | deleteOne key => exact exec_noWrite _ lc k (Op.deleteOne key) h rfl
  | sweep nowAt => exact exec_noWrite _ lc k (Op.sweep nowAt) h rfl

theorem run_bounded {V : Type} (ops : List (Op V)) (lc : LocalCache V) (now : Time)
    (hread : ∀ t ∈ ops.filterMap Op.clockReading, t ≤ now)
    (h : ∀ k e0, lc.cache.lookup k = some e0 →
      e0.expireAtTimestamp ≤ Time.Unix (Time.Add now lc.cacheTTL)) :
    (run lc ops).cacheTTL = lc.cacheTTL
      ∧ ∀ k e, (run lc ops).cache.lookup k = some e →
          e.expireAtTimestamp ≤ Time.Unix (Time.Add now lc.cacheTTL) := by
  induction ops generalizing lc with
  | nil => exact ⟨rfl, h⟩
  | cons op rest ih =>
    have hop : ∀ t, op.clockReading = some t → t ≤ now := by
      intro t ht
      apply hread t
      rw [List.filterMap_cons, ht]
      exact List.mem_cons_self _ _
    have hrest : ∀ t ∈ rest.filterMap Op.clockReading, t ≤ now := by
      intro t ht
      apply hread t
      rw [List.filterMap_cons]
      cases hc : op.clockReading with
      | none => exact ht
      | some t0 => exact List.mem_cons_of_mem _ ht
    have httl := cacheTTL_exec lc op
    have h1 : ∀ k e0, (op.exec lc).cache.lookup k = some e0 →
        e0.expireAtTimestamp ≤ Time.Unix (Time.Add now (op.exec lc).cacheTTL) := by
      intro k e0 he0
      rw [httl]
      exact exec_bounded lc op now k hop (h k) e0 he0
    have h2 := ih (op.exec lc) hrest h1
    rw [httl] at h2
    exact h2

/-- C18: in the state reached from a new cache with TTL `ttl` by any calls of `InsertOne`,
`UpdateOne`, `GetOne`, `DeleteOne` and passes of the sweep, with a clock that never goes
backwards and reads `now` at the end, the TTL is still `ttl` and every entry has an
expiration-timestamp of at most `(now + ttl).Unix()`, what an insert at `now` would store.
Hence an `UpdateOne` at a time `later >= now` on a key that has an entry succeeds and does
not lower its expiration-timestamp, and an entry of the map is gone after a pass of the
sweep that reads `now + ttl` or more when it visits the key, whatever steps other than
`InsertOne` and `UpdateOne` on that key run before the pass. -/
theorem bounded_lifetime {V : Type} (ttl interval : Duration) (ops : List (Op V))
    (now : Time) (hclock : clockNondecreasing ops now) :
    (run (NewLocalCache ttl interval) ops).cacheTTL = ttl
      ∧ (∀ k e, (run (NewLocalCache ttl interval) ops).cache.lookup k = some e →
          e.expireAtTimestamp ≤ Time.Unix (Time.Add now ttl))
      ∧ (∀ k e v later, now ≤ later →
          (run (NewLocalCache ttl interval) ops).cache.lookup k = some e →
          (UpdateOne (run (NewLocalCache ttl interval) ops) later k v).1 = none
            ∧ ∃ e2, (UpdateOne (run (NewLocalCache ttl interval) ops) later k v).2.cache.lookup k
                = some e2 ∧ e.expireAtTimestamp ≤ e2.expireAtTimestamp)
      ∧ (∀ k (between : List (Op V)) (nowAt : String → Time),
          (∀ op ∈ between, op.noWrite k = true) → Time.Add now ttl ≤ nowAt k →
          (cleanupPass nowAt
            (run (run (NewLocalCache ttl interval) ops) between)).cache.lookup k = none) := by
  have hread : ∀ t ∈ ops.filterMap Op.clockReading, t ≤ now := by
    intro t ht
    unfold clockNondecreasing at hclock
    rw [List.pairwise_append] at hclock
    exact hclock.2.2 t ht now (List.mem_singleton_self now)
  have h0 : ∀ k e0, (NewLocalCache ttl interval : LocalCache V).cache.lookup k = some e0 →
      e0.expireAtTimestamp
        ≤ Time.Unix (Time.Add now (NewLocalCache ttl interval : LocalCache V).cacheTTL) := by
    intro k e0 he0
    simp [NewLocalCache] at he0
  obtain ⟨httl, hinv⟩ := run_bounded ops (NewLocalCache ttl interval) now hread h0
  have httl2 : (run (NewLocalCache ttl interval : LocalCache V) ops).cacheTTL = ttl := httl
  have hinv2 : ∀ k e, (run (NewLocalCache ttl interval : LocalCache V) ops).cache.lookup k
      = some e → e.expireAtTimestamp ≤ Time.Unix (Time.Add now ttl) := hinv
  refine ⟨httl2, hinv2, ?_, ?_⟩
  · intro k e v later hlater hl
    rw [UpdateOne_of_present _ later k v e hl]
    refine ⟨rfl, ⟨v, Time.Unix (Time.Add later
      (run (NewLocalCache ttl interval : LocalCache V) ops).cacheTTL)⟩,
      Finmap.lookup_insert _, ?_⟩
    rw [httl2]
    refine le_trans (hinv2 k e hl) (Unix_mono _ _ ?_)
    unfold Time.Add
    exact Int.add_le_add_right hlater _
  · intro k between nowAt hbetween hlate
    have h1 := run_noWrite
      (fun e0 : cachedValue V => e0.expireAtTimestamp ≤ Time.Unix (Time.Add now ttl))
      between (run (NewLocalCache ttl interval) ops) k (hinv2 k) hbetween
    rw [lookup_cleanupPass]
    cases hl : (run (run (NewLocalCache ttl interval) ops) between).cache.lookup k with
    | none => rfl
    | some e0 =>
      rw [Option.some_bind, if_pos (le_trans (h1 e0 hl) (Unix_mono _ _ hlate))]

/-- C18 for an insert, a pass of the sweep, a second insert and an update, with the clock
reading two seconds at the end. -/
theorem bounded_lifetime_witness :
    (run (NewLocalCache (1500 * Millisecond) (10 * Millisecond))
        [Op.insertOne 0 "a" (7 : Nat), Op.sweep (fun _ => 600 * Millisecond),
          Op.insertOne (700 * Millisecond) "b" 8,
          Op.updateOne (900 * Millisecond) "a" 9]).cacheTTL = 1500 * Millisecond
      ∧ (∀ k e, (run (NewLocalCache (1500 * Millisecond) (10 * Millisecond))
          [Op.insertOne 0 "a" (7 : Nat), Op.sweep (fun _ => 600 * Millisecond),
            Op.insertOne (700 * Millisecond) "b" 8,
            Op.updateOne (900 * Millisecond) "a" 9]).cache.lookup k = some e →
          e.expireAtTimestamp ≤ Time.Unix (Time.Add (2 * Second) (1500 * Millisecond)))
      ∧ (∀ k e v later, 2 * Second ≤ later →
          (run (NewLocalCache (1500 * Millisecond) (10 * Millisecond))
            [Op.insertOne 0 "a" (7 : Nat), Op.sweep (fun _ => 600 * Millisecond),
              Op.insertOne (700 * Millisecond) "b" 8,
              Op.updateOne (900 * Millisecond) "a" 9]).cache.lookup k = some e →
          (UpdateOne (run (NewLocalCache (1500 * Millisecond) (10 * Millisecond))
            [Op.insertOne 0 "a" (7 : Nat), Op.sweep (fun _ => 600 * Millisecond),
              Op.insertOne (700 * Millisecond) "b" 8,
              Op.updateOne (900 * Millisecond) "a" 9]) later k v).1 = none
            ∧ ∃ e2, (UpdateOne (run (NewLocalCache (1500 * Millisecond) (10 * Millisecond))
                [Op.insertOne 0 "a" (7 : Nat), Op.sweep (fun _ => 600 * Millisecond),
                  Op.insertOne (700 * Millisecond) "b" 8,
                  Op.updateOne (900 * Millisecond) "a" 9]) later k v).2.cache.lookup k
                = some e2 ∧ e.expireAtTimestamp ≤ e2.expireAtTimestamp)
      ∧ (∀ k (between : List (Op Nat)) (nowAt : String → Time),
          (∀ op ∈ between, op.noWrite k = true) →
          Time.Add (2 * Second) (1500 * Millisecond) ≤ nowAt k →
          (cleanupPass nowAt
            (run (run (NewLocalCache (1500 * Millisecond) (10 * Millisecond))
              [Op.insertOne 0 "a" (7 : Nat), Op.sweep (fun _ => 600 * Millisecond),
                Op.insertOne (700 * Millisecond) "b" 8,
                Op.updateOne (900 * Millisecond) "a" 9]) between)).cache.lookup k = none) :=
  bounded_lifetime (1500 * Millisecond) (10 * Millisecond)
    [Op.insertOne 0 "a" (7 : Nat), Op.sweep (fun _ => 600 * Millisecond),
      Op.insertOne (700 * Millisecond) "b" 8, Op.updateOne (900 * Millisecond) "a" 9]
    (2 * Second) (by decide)

end Cache
